import Mathlib

/-!
Verification development for the argocd-diff-action pipeline.

The TypeScript source (src/main.ts, in its richer variant carrying the
public-URL override, inter-app delay and configurable fail policy) is
shallowly embedded below: pure functions become Lean functions on
`String` / `List Char`, the stateful diff loop becomes a map over
explicit per-application subprocess outcomes, and platform primitives
(JavaScript `RegExp.test`, `localeCompare`) are passed in as explicit
function parameters where the source calls them on data that is not
statically known.
-/

namespace ArgoCDDiff

/-- Application metadata, mirroring `App.metadata` in the source
(`metadata: { name: string }`). -/
structure Metadata where
  name : String
  deriving DecidableEq, Repr

/-- Application source descriptor, mirroring `App.spec.source` in the
source.  The `kustomize` and `helm` fields of the source are opaque
objects never inspected by the program and are omitted. -/
structure Source where
  repoURL : String
  path : String
  targetRevision : String
  deriving DecidableEq, Repr

/-- Application spec, mirroring `App.spec`. -/
structure Spec where
  source : Source
  deriving DecidableEq, Repr

/-- Sync status enum, mirroring `'OutOfSync' | 'Synced'`. -/
inductive SyncStatus where
  | OutOfSync
  | Synced
  deriving DecidableEq, Repr

/-- Sync record, mirroring `App.status.sync`. -/
structure Sync where
  status : SyncStatus
  deriving DecidableEq, Repr

/-- Application status, mirroring `App.status`. -/
structure Status where
  sync : Sync
  deriving DecidableEq, Repr

/-- One application as fetched from the deployment server, mirroring the
exported `App` interface of the source. -/
structure App where
  metadata : Metadata
  spec : Spec
  status : Status
  deriving DecidableEq, Repr

/-- Payload of the underlying `Error` object attached by `child_process.exec`
to a failed invocation.  Only its presence and an opaque message are
relevant to the embedded logic. -/
structure ErrInfo where
  message : String
  deriving DecidableEq, Repr

/-- Result of one subprocess invocation, mirroring the `ExecResult`
interface (`err?: Error; stdout: string; stderr: string`).  `err = none`
models a zero exit status (the promise resolves), `err = some _` models
an abnormal termination (the promise rejects with the same record). -/
structure ExecResult where
  err : Option ErrInfo
  stdout : String
  stderr : String
  deriving DecidableEq, Repr

/-- One per-application outcome, mirroring the `Diff` interface
(`app: App; diff: string; error?: ExecResult`). -/
structure Diff where
  app : App
  diff : String
  error : Option ExecResult
  deriving DecidableEq, Repr

/-!
## JavaScript string primitives

JavaScript strings are sequences of code units; the embedding models
them by the `data` character list of a Lean `String`, and embeds the
JavaScript string methods the source uses as computable list functions
(Lean's own `String.startsWith`, `String.splitOn`, … are byte-position
based and are not used).
-/

/-- Embedding of `s.startsWith(pre)`. -/
def jsStartsWith (s pre : String) : Bool := pre.data.isPrefixOf s.data

/-- Embedding of `s.endsWith(suf)`. -/
def jsEndsWith (s suf : String) : Bool := suf.data.isSuffixOf s.data

/-- Embedding of `m.slice(1, -1)` (drop the first and last characters;
on a one-character string both slice bounds collapse and the result is
empty). -/
def jsSliceInner (m : String) : String := ⟨(m.data.drop 1).dropLast⟩

/-- Embedding of `l.split(sep)` for a one-character separator. -/
def splitSep (sep : Char) : List Char → List (List Char)
  | [] => [[]]
  | c :: rest =>
    let r := splitSep sep rest
    if c = sep then [] :: r
    else
      match r with
      | g :: gs => (c :: g) :: gs
      | [] => [[c]]

/-- Embedding of `parts.join(sep)` for a one-character separator. -/
def joinSeg (sep : Char) : List (List Char) → List Char
  | [] => []
  | [x] => x
  | x :: xs => x ++ sep :: joinSeg sep xs

/-- Embedding of `m.split(',')` as a list of strings. -/
def jsSplitComma (m : String) : List String :=
  (splitSep ',' m.data).map (fun l => (⟨l⟩ : String))

/-!
## Application name filter

`filterAppsByName` from the source.  The JavaScript `new RegExp(inner)`
/ `.test(name)` pair is a platform primitive; it is modeled as an
explicit parameter `regexTest : String → String → Bool` taking the
pattern text and the candidate name.  The JavaScript `Set` built from
`split(',')` is modeled by membership in the split list.
-/

/-- Embedding of `filterAppsByName(appsAffected, appNameMatcher)`. -/
def filterAppsByName (regexTest : String → String → Bool)
    (appsAffected : List App) (appNameMatcher : String) : List App :=
  if jsStartsWith appNameMatcher "/" && jsEndsWith appNameMatcher "/" then
    let inner := jsSliceInner appNameMatcher
    appsAffected.filter (fun app => regexTest inner app.metadata.name)
  else if appNameMatcher ≠ "" then
    let appNames := jsSplitComma appNameMatcher
    appsAffected.filter (fun app => appNames.contains app.metadata.name)
  else appsAffected

/-!
## Changed-file / application association

`partOfApp` and `getFirstTwoDirectories` from the source.  The action
runs on linux, so Node's `path.normalize` / `path.sep` are the POSIX
variants; `pathNormalize` below reproduces `posix.normalize` exactly:
split on '/', drop empty and "." segments, resolve ".." (allowed to
accumulate above the root only for relative paths), then restore the
absolute marker and a trailing separator.
-/

/-- One step of Node's `normalizeString` segment resolution, processing
segment `seg` against the (reversed) list of already-kept segments. -/
def normStep (allowAboveRoot : Bool) (acc : List (List Char))
    (seg : List Char) : List (List Char) :=
  if seg = [] || seg = ['.'] then acc
  else if seg = ['.', '.'] then
    match acc with
    | [] => if allowAboveRoot then [seg] else []
    | last :: rest => if last = ['.', '.'] then seg :: acc else rest
  else seg :: acc

/-- Embedding of Node `path.normalize` (POSIX). -/
def pathNormalize (p : String) : String :=
  if p = "" then "."
  else
    let isAbs := p.data.head? == some '/'
    let trailing := p.data.getLast? == some '/'
    let segs := ((splitSep '/' p.data).foldl (normStep !isAbs) []).reverse
    let body := joinSeg '/' segs
    if body = [] then
      if isAbs then "/" else if trailing then "./" else "."
    else
      let body' := if trailing then body ++ ['/'] else body
      if isAbs then ⟨'/' :: body'⟩ else ⟨body'⟩

/-- Embedding of `getFirstTwoDirectories(filePath)`: normalize, split on
the separator, drop empty segments (`filter(Boolean)`), and keep the
first two segments (the whole list when there are fewer than two). -/
def getFirstTwoDirectories (filePath : String) : String :=
  let normalizedPath := pathNormalize filePath
  let parts := (splitSep '/' normalizedPath.data).filter (fun s => s ≠ [])
  if parts.length < 2 then ⟨joinSeg '/' parts⟩
  else ⟨joinSeg '/' (parts.take 2)⟩

/-- Embedding of `partOfApp(changedFiles, app)`. -/
def partOfApp (changedFiles : List String) (app : App) : Bool :=
  let sourcePath := pathNormalize app.spec.source.path
  let appPath := getFirstTwoDirectories sourcePath
  changedFiles.any (fun file => jsStartsWith (pathNormalize file) appPath)

/-- Embedding of the affected-apps selection
`repoApps.filter(partOfApp.bind(null, changedFiles))`. -/
def selectAffected (changedFiles : List String) (repoApps : List App) :
    List App :=
  repoApps.filter (partOfApp changedFiles)

/-!
## Diff runner classification

The body of the `asyncForEach(apps, ...)` loop.  `await argocd(command)`
resolves exactly when the subprocess exits zero (then the `try` branch
pushes `{app, diff: ''}`) and rejects with the `ExecResult` otherwise
(then the `catch` branch pushes `{app, diff: res.stdout}` when stdout is
non-empty — JavaScript truthiness of a string — and
`{app, diff: '', error: res}` when stdout is empty).
-/

/-- Classification of one subprocess outcome into the pushed `Diff`
record, following the `try`/`catch` of the per-application loop body. -/
def runDiffStep (app : App) (res : ExecResult) : Diff :=
  match res.err with
  | none => { app := app, diff := "", error := none }
  | some _ =>
    if res.stdout ≠ "" then { app := app, diff := res.stdout, error := none }
    else { app := app, diff := "", error := some res }

/-- The whole diff loop: each selected application paired with its
subprocess outcome yields one pushed `Diff`, in order (the loop is
strictly sequential, so the list of pushes is exactly this map). -/
def runDiffs (items : List (App × ExecResult)) : List Diff :=
  items.map (fun p => runDiffStep p.1 p.2)

/-!
## Outcome decision

The tail of `run()`: count `diffs.filter(d => d.error)`, emit warnings,
and decide `core.setFailed`.  The model records whether any
`core.warning` was emitted and the `setFailed` message, if any.
-/

/-- Result of the outcome decision: whether a warning was emitted, and
the `core.setFailed` message when the run is marked failed. -/
structure OutcomeReport where
  warned : Bool
  failedMsg : Option String
  deriving DecidableEq, Repr

/-- Message of the all-applications-failed branch, from the template
literal in the source. -/
def allFailedMsg (nerr : Nat) : String :=
  "ArgoCD diff failed: All " ++ toString nerr ++ " apps encountered errors"

/-- Message of the N-of-M-failed branch, from the template literal in
the source. -/
def someFailedMsg (nerr total : Nat) : String :=
  "ArgoCD diff failed: Encountered " ++ toString nerr ++
    " errors out of " ++ toString total ++ " apps"

/-- Embedding of the outcome decision at the end of `run()`. -/
def decideOutcome (failOnErrors : Bool) (diffs : List Diff) : OutcomeReport :=
  let diffsWithErrors := diffs.filter (fun d => d.error.isSome)
  if diffsWithErrors.length > 0 then
    if failOnErrors = true ∧ diffsWithErrors.length = diffs.length then
      { warned := true, failedMsg := some (allFailedMsg diffsWithErrors.length) }
    else if failOnErrors = true then
      { warned := true,
        failedMsg := some (someFailedMsg diffsWithErrors.length diffs.length) }
    else
      { warned := true, failedMsg := none }
  else
    { warned := false, failedMsg := none }

/-!
## Diff normalizer (`filterDiff`)

The source's `filterDiff` is built from three JavaScript regular
expression operations over the raw diff text:

* `diffText.split(/(?=^===== )/m)` — split before every line that
  begins with `"===== "`;
* two global `.replace(…, '')` calls removing, respectively, an
  `argocd.argoproj.io/instance:` change block (a `<` line, a `---`
  line and a `>` line, with an optional leading `NcM` change marker)
  and a single `< app.kubernetes.io/part-of:` line (same optional
  marker; the dots of `app.kubernetes.io` are unescaped in the source,
  so they match any non-line-terminator character);
* a final `.match(/^===== .*\/.* ======$/)` test dropping entries that
  are exactly one header line.

These specific patterns are deterministic (every quantified piece is
followed by text it can never match, so greedy matching never
backtracks), which lets them be embedded as direct character-list
scanners below.  JavaScript `\s` and `String.prototype.trim` use the
same whitespace set, embedded as `jsWhitespace`; the `.` class excludes
the four line terminators, embedded as `dotChar`.
-/

/-- JavaScript whitespace (`\s`, `trim`): space, tab, line terminators,
vertical tab, form feed, NBSP, Ogham space, the U+2000–U+200A range,
LS, PS, NNBSP, MMSP, ideographic space and the BOM. -/
def jsWhitespace (c : Char) : Bool :=
  c = ' ' || c = '\t' || c = '\n' || c = '\r' || c.toNat = 0xb ||
  c.toNat = 0xc || c.toNat = 0xa0 || c.toNat = 0x1680 ||
  (0x2000 ≤ c.toNat && c.toNat ≤ 0x200a) || c.toNat = 0x2028 ||
  c.toNat = 0x2029 || c.toNat = 0x202f || c.toNat = 0x205f ||
  c.toNat = 0x3000 || c.toNat = 0xfeff

/-- JavaScript line terminators (the characters after which a multiline
`^` matches, and which the `.` class excludes). -/
def lineTerm (c : Char) : Bool :=
  c = '\n' || c = '\r' || c.toNat = 0x2028 || c.toNat = 0x2029

/-- Characters matched by the JavaScript `.` class (no `s` flag). -/
def dotChar (c : Char) : Bool := !lineTerm c

/-- Embedding of `String.prototype.trim`. -/
def jsTrim (l : List Char) : List Char :=
  ((l.dropWhile jsWhitespace).reverse.dropWhile jsWhitespace).reverse

/-- The section-header marker `"===== "` looked ahead by the split. -/
def headerMark : List Char := "===== ".toList

/-- Accumulating worker for `splitSections`; `acc` is the current piece
reversed.  A new piece starts after a line terminator that is
immediately followed by the header marker (the `(?=^===== )`/`m`
lookahead); a zero-width match at position 0 produces no leading empty
piece, exactly as `String.prototype.split` behaves. -/
def splitSecAux : List Char → List Char → List (List Char)
  | acc, [] => [acc.reverse]
  | acc, c :: rest =>
    if lineTerm c && headerMark.isPrefixOf rest then
      (c :: acc).reverse :: splitSecAux [] rest
    else splitSecAux (c :: acc) rest

/-- Embedding of `diffText.split(/(?=^===== )/m)`. -/
def splitSections (l : List Char) : List (List Char) := splitSecAux [] l

/-- Global-replace worker: scan left to right; where `tryM` matches a
non-empty prefix of the remaining text, emit `repl` and skip the match,
otherwise keep one character.  `fuel` bounds recursion (every step
consumes at least one character, so `l.length` fuel is exact). -/
def replAux (tryM : List Char → Option Nat) (repl : List Char) :
    Nat → List Char → List Char
  | _, [] => []
  | 0, l => l
  | fuel + 1, c :: rest =>
    match tryM (c :: rest) with
    | some 0 => repl ++ c :: replAux tryM repl fuel rest
    | some (n + 1) => repl ++ replAux tryM repl fuel (rest.drop n)
    | none => c :: replAux tryM repl fuel rest

/-- Embedding of a global `String.prototype.replace` whose matcher at
each position is `tryM` (returning the length of the match) and whose
replacement text is `repl`. -/
def jsReplaceAll (tryM : List Char → Option Nat) (repl l : List Char) :
    List Char :=
  replAux tryM repl l.length l

/-- Length of the leading ASCII-digit run (`\d+` is greedy and is always
followed by a non-digit in the marker pattern, so no backtracking). -/
def numDigits (l : List Char) : Nat := (l.takeWhile Char.isDigit).length

/-- The `(,\d+)?` group: consumed characters and the rest.  When a comma
is not followed by a digit the group matches empty (and the overall
marker then fails on the stranded comma, exactly as backtracking
would). -/
def optCommaDigits : List Char → Nat × List Char
  | ',' :: rest =>
    let d := numDigits rest
    if d = 0 then (0, ',' :: rest) else (d + 1, rest.drop d)
  | l => (0, l)

/-- The optional change-marker line `(\d+(,\d+)?c\d+(,\d+)?\n)?` of both
replacement patterns: returns the matched length when the marker is
present at the head of `l`. -/
def parseMarker (l : List Char) : Option Nat :=
  let d1 := numDigits l
  if d1 = 0 then none
  else
    let p1 := optCommaDigits (l.drop d1)
    match p1.2 with
    | 'c' :: l3 =>
      let d2 := numDigits l3
      if d2 = 0 then none
      else
        let p2 := optCommaDigits (l3.drop d2)
        match p2.2 with
        | '\n' :: _ => some (d1 + p1.1 + 1 + d2 + p2.1 + 1)
        | _ => none
    | _ => none

/-- Length of the leading JavaScript-whitespace run (`\s+`). -/
def wsCount (l : List Char) : Nat := (l.takeWhile jsWhitespace).length

/-- Length of the leading `.`-class run (`.*`, greedy to the end of the
line). -/
def dotCount (l : List Char) : Nat := (l.takeWhile dotChar).length

/-- The literal key of the first replacement pattern. -/
def instKey : List Char := "argocd.argoproj.io/instance:".toList

/-- The literal `\n---\n` separator of the first replacement pattern. -/
def sepLit : List Char := "\n---\n".toList

/-- Match, at the head of `l`, the marker-less body of the first
replacement pattern:
`<\s+argocd\.argoproj\.io\/instance:.*\n---\n>\s+argocd\.argoproj\.io\/instance:.*\n?`. -/
def core1 (l : List Char) : Option Nat :=
  match l with
  | '<' :: l1 =>
    let w := wsCount l1
    if w = 0 then none
    else
      let l2 := l1.drop w
      if instKey.isPrefixOf l2 then
        let l3 := l2.drop instKey.length
        let r := dotCount l3
        let l4 := l3.drop r
        if sepLit.isPrefixOf l4 then
          match l4.drop sepLit.length with
          | '>' :: l6 =>
            let w2 := wsCount l6
            if w2 = 0 then none
            else
              let l7 := l6.drop w2
              if instKey.isPrefixOf l7 then
                let l8 := l7.drop instKey.length
                let r2 := dotCount l8
                let nl := match (l8.drop r2).head? with
                  | some '\n' => 1
                  | _ => 0
                some (1 + w + instKey.length + r + sepLit.length + 1 + w2 +
                  instKey.length + r2 + nl)
              else none
          | _ => none
        else none
      else none
  | _ => none

/-- Match the whole first replacement pattern at the head of `l`: try
the optional marker greedily, falling back to the marker-less body (the
fallback can only matter when the marker parse succeeds but the body
after it fails, exactly as regex backtracking of the `( … )?` group). -/
def tryMatch1 (l : List Char) : Option Nat :=
  match parseMarker l with
  | some m =>
    match core1 (l.drop m) with
    | some k => some (m + k)
    | none => core1 l
  | none => core1 l

/-- Match `app.kubernetes.io\/part-of:` at the head of `l` — the two
dots of `app.kubernetes.io` are unescaped in the source pattern and so
match any `.`-class character. -/
def matchPartOfKey (l : List Char) : Option Nat :=
  if "app".toList.isPrefixOf l then
    match l.drop 3 with
    | c1 :: l4 =>
      if dotChar c1 && "kubernetes".toList.isPrefixOf l4 then
        match l4.drop 10 with
        | c2 :: l5 =>
          if dotChar c2 && "io/part-of:".toList.isPrefixOf l5 then
            some 26
          else none
        | [] => none
      else none
    | [] => none
  else none

/-- Match, at the head of `l`, the marker-less body of the second
replacement pattern: `<\s+app.kubernetes.io\/part-of:.*\n?`. -/
def core2 (l : List Char) : Option Nat :=
  match l with
  | '<' :: l1 =>
    let w := wsCount l1
    if w = 0 then none
    else
      let l2 := l1.drop w
      match matchPartOfKey l2 with
      | some k =>
        let l3 := l2.drop k
        let r := dotCount l3
        let nl := match (l3.drop r).head? with
          | some '\n' => 1
          | _ => 0
        some (1 + w + k + r + nl)
      | none => none
  | _ => none

/-- Match the whole second replacement pattern at the head of `l`
(optional marker handled as in `tryMatch1`). -/
def tryMatch2 (l : List Char) : Option Nat :=
  match parseMarker l with
  | some m =>
    match core2 (l.drop m) with
    | some k => some (m + k)
    | none => core2 l
  | none => core2 l

/-- The literal trailer of the header-only pattern. -/
def headerTail : List Char := " ======".toList

/-- Embedding of `entry.match(/^===== .*\/.* ======$/) !== null`: the
whole entry is a single line of the form `"===== " ++ x ++ "/" ++ y ++
" ======"` (without the `m` flag, `^`/`$` anchor to the whole string,
and `.` excludes line terminators, so any line terminator anywhere
defeats the match). -/
def headerOnly (l : List Char) : Bool :=
  headerMark.isPrefixOf l &&
  headerTail.isSuffixOf l &&
  l.all (fun c => !lineTerm c) &&
  ((l.drop 6).take (l.length - 13)).contains '/'

/-- Per-section processing of `filterDiff`:
`section.replace(regex1, '').trim().replace(regex2, '').trim()`. -/
def processSection (s : List Char) : List Char :=
  jsTrim (jsReplaceAll tryMatch2 [] (jsTrim (jsReplaceAll tryMatch1 [] s)))

/-- Embedding of `Array.prototype.join('\n')`. -/
def joinNl : List (List Char) → List Char
  | [] => []
  | [x] => x
  | x :: xs => x ++ '\n' :: joinNl xs

/-- Character-list body of `filterDiff`. -/
def filterDiffL (l : List Char) : List Char :=
  let sections := splitSections l
  let filteredSection := (sections.map processSection).filter (fun s => s ≠ [])
  let removeEmptyHeaders := filteredSection.filter (fun e => !headerOnly e)
  jsTrim (joinNl removeEmptyHeaders)

/-- Embedding of the source's `filterDiff(diffText)`. -/
def filterDiff (diffText : String) : String :=
  ⟨filterDiffL diffText.data⟩

/-!
## Analysis vocabulary for the diff normalizer

Definitions used to state and prove structural properties of
`filterDiff` (no program behavior of their own).
-/

/-- The literal tail of the part-of replacement pattern (every match of
the second pattern contains it verbatim). -/
def partKey : List Char := "io/part-of:".toList

/-- Substring test: `pat` occurs contiguously in `l`. -/
def containsSub (pat : List Char) : List Char → Bool
  | [] => pat.isPrefixOf []
  | c :: rest => pat.isPrefixOf (c :: rest) || containsSub pat rest

/-- A text has no internal section boundary: no line terminator inside
it is immediately followed by the header marker. -/
def NoBound (q : List Char) : Prop :=
  ∀ x t y, q = x ++ t :: y → lineTerm t = true →
    headerMark.isPrefixOf y = false

/-- A text neither starts nor ends with JavaScript whitespace (so
`jsTrim` leaves it unchanged). -/
def edgeClean (l : List Char) : Prop :=
  (∀ a, l.head? = some a → jsWhitespace a = false) ∧
  (∀ b, l.getLast? = some b → jsWhitespace b = false)

/-- The tail of a newline join: `joinNl (q :: qs) = q ++ joinTail qs`. -/
def joinTail : List (List Char) → List Char
  | [] => []
  | q :: qs => '\n' :: (q ++ joinTail qs)

/-- The trimmed sections that survive both filters of `filterDiff`'s
pipeline (with the two replacements already known to be the identity). -/
def keptSecs (ps : List (List Char)) : List (List Char) :=
  ((ps.map jsTrim).filter (fun s => s ≠ [])).filter (fun e => !headerOnly e)

/-- The trim/filter/join tail of `filterDiff`'s pipeline, applied to an
already-split section list. -/
def pipeTail (ps : List (List Char)) : List Char :=
  joinNl (keptSecs ps)

/-!
## Secret scrubbing (`scrubSecrets`)

`input.match` with the auth-token pattern `-?-auth-token=([\w.\S]+)` (written here with the leading dashes separated, two literal dashes in the source) captures, at the leftmost
position where the literal `--auth-token=` is followed by at least one
non-whitespace character, the maximal run of non-whitespace characters
(the class `[\w.\S]` is the union of `\w`, a literal dot and `\S`, which
is just `\S`).  The source then builds `new RegExp(token, 'g')` from the
captured text — NOT an escaped literal — and replaces its matches by
`'***'`.  That compilation step is a platform primitive; it is embedded
here for tokens whose characters are ordinary (non-metacharacter)
characters or `.` (which compiles to the any-character class), the only
shapes exercised below.
-/

/-- The literal `--auth-token=` key of the capture pattern. -/
def authKey : List Char := "--auth-token=".toList

/-- Leftmost capture of the auth-token pattern: at each position,
if the key matches and is followed by at least one non-whitespace
character, capture the maximal non-whitespace run; otherwise keep
scanning (also past a key followed by whitespace, as the regex engine
does). -/
def findAuthToken : List Char → Option (List Char)
  | [] => none
  | c :: rest =>
    if authKey.isPrefixOf (c :: rest) then
      let tok := ((c :: rest).drop authKey.length).takeWhile
        (fun ch => !jsWhitespace ch)
      if tok = [] then findAuthToken rest else some tok
    else findAuthToken rest

/-- Match, at the head of `l`, the regex compiled from the captured
token: each token character matches itself, except `.` which matches
any `.`-class character. -/
def patMatchLen : List Char → List Char → Option Nat
  | [], _ => some 0
  | _ :: _, [] => none
  | p :: ps, c :: cs =>
    if p = '.' then
      if dotChar c then (patMatchLen ps cs).map (· + 1) else none
    else if c = p then (patMatchLen ps cs).map (· + 1)
    else none

/-- Character-list body of `scrubSecrets`. -/
def scrubSecretsL (l : List Char) : List Char :=
  match findAuthToken l with
  | none => l
  | some tok => jsReplaceAll (patMatchLen tok) "***".toList l

/-- Embedding of the source's `scrubSecrets(input)`. -/
def scrubSecrets (input : String) : String :=
  ⟨scrubSecretsL input.data⟩

/-!
## Report publisher (`postDiffComment`)

The pure decisions of `postDiffComment`: normalize each diff text in
place, keep entries with a non-empty diff or an error, sort them
(errors last, then by `localeCompare` of the application names — the
platform collator is passed in as `nameCmp`), delete every existing
comment whose body contains the environment header, and create a new
comment exactly when the kept list is non-empty.  `Array.prototype.sort`
is stable and (for a consistent comparator) sorts by `comparator ≤ 0`;
it is embedded as a stable merge sort over that relation.
-/

/-- Embedding of `s.includes(pat)` on strings (`containsSub` scans every
position for a match of the pattern). -/
def strContainsSub (s pat : String) : Bool := containsSub pat.data s.data

/-- One existing pull-request comment: its id and optional body
(`comment.body?` is optional in the platform's response type). -/
structure CommentRec where
  id : Nat
  body : Option String
  deriving DecidableEq, Repr

/-- The fixed header string `` `## ArgoCD Diff on ${ENV}` ``, the
idempotency key for comment replacement. -/
def prefixHeader (env : String) : String := "## ArgoCD Diff on " ++ env

/-- In-place normalization step of the `.map` in `postDiffComment`. -/
def normalizeDiff (d : Diff) : Diff := { d with diff := filterDiff d.diff }

/-- The `.map(…filterDiff…).filter(d => d.diff !== '' || d.error)` chain
of `postDiffComment`, before sorting. -/
def keptDiffs (diffs : List Diff) : List Diff :=
  (diffs.map normalizeDiff).filter (fun d => d.diff ≠ "" || d.error.isSome)

/-- The comparator passed to `.sort(…)`: an entry with an error sorts
after one without; otherwise the names are compared with the platform's
`localeCompare`, passed in as `nameCmp`. -/
def jsSortCompare (nameCmp : String → String → Int) (a b : Diff) : Int :=
  if a.error.isSome && !b.error.isSome then 1
  else if b.error.isSome && !a.error.isSome then -1
  else nameCmp a.app.metadata.name b.app.metadata.name

/-- The boolean order induced by the comparator (`compare(a,b) <= 0`),
under which a consistent-comparator `Array.prototype.sort` sorts. -/
def jsSortLe (nameCmp : String → String → Int) (a b : Diff) : Bool :=
  jsSortCompare nameCmp a b ≤ 0

/-- The full `filteredDiffs` chain of `postDiffComment`: normalize,
keep, sort. -/
def filteredDiffs (nameCmp : String → String → Int) (diffs : List Diff) :
    List Diff :=
  (keptDiffs diffs).mergeSort (jsSortLe nameCmp)

/-- Whether an existing comment is deleted:
`comment.body?.includes(prefixHeader)`. -/
def commentMatches (env : String) (c : CommentRec) : Bool :=
  match c.body with
  | some b => strContainsSub b (prefixHeader env)
  | none => false

/-- The externally visible effects of `postDiffComment` on the comment
thread: which comment ids are deleted, and whether a new comment is
created. -/
structure PublishEffects where
  deletedIds : List Nat
  created : Bool
  deriving DecidableEq, Repr

/-- Embedding of the comment-thread effects of `postDiffComment`: every
comment whose body contains the header is deleted (unconditionally),
and a new comment is created iff `filteredDiffs.length` is truthy. -/
def postDiffComment (nameCmp : String → String → Int) (env : String)
    (comments : List CommentRec) (diffs : List Diff) : PublishEffects :=
  { deletedIds := (comments.filter (commentMatches env)).map (fun c => c.id)
    created := (filteredDiffs nameCmp diffs).length != 0 }

/-- Literal-token matcher: matches the captured token only at a literal
occurrence.  This is the matcher the specification's words describe for
claim C8 ("every literal occurrence of the captured token"); compare
`patMatchLen`, the regex compilation the source actually performs. -/
def patMatchLitLen (tok l : List Char) : Option Nat :=
  if tok.isPrefixOf l then some tok.length else none

/-- Modelled from the spec: secret scrubbing as claim C8 words it —
every literal occurrence of the captured token replaced by the mask.
Kept only for comparison against the source's `scrubSecrets`. -/
def scrubSecretsSpec (input : String) : String :=
  match findAuthToken input.data with
  | none => input
  | some tok => ⟨jsReplaceAll (patMatchLitLen tok) "***".toList input.data⟩

/-!
## Concrete fixtures used by scenario conjuncts and witnesses
-/

/-- A raw diff in which an instance-annotation line and a part-of line
are adjacent: removing the part-of line (second replacement) makes the
two instance lines adjacent to the `---` separator, creating a fresh
instance-block match that only a second `filterDiff` pass removes. -/
def diffNoise : String :=
  "< argocd.argoproj.io/instance: x\n< app.kubernetes.io/part-of: y\n---\n> argocd.argoproj.io/instance: z"

/-- An annotation-free diff text used to witness the amended C7. -/
def diffPlain : String :=
  "===== apps/demo ======\n3c3\n<   replicas: 1\n---\n>   replicas: 2"

/-- A repository-eligible application with a deep source path. -/
def appA : App :=
  { metadata := { name := "app-a" }
    spec := { source := { repoURL := "https://github.com/acme/infra"
                          path := "apps/alpha/deep"
                          targetRevision := "main" } }
    status := { sync := { status := .Synced } } }

/-- A second application, under `services/beta`. -/
def appB : App :=
  { metadata := { name := "app-b" }
    spec := { source := { repoURL := "https://github.com/acme/infra"
                          path := "services/beta/chart"
                          targetRevision := "main" } }
    status := { sync := { status := .OutOfSync } } }

/-- A third application, with a single-segment source path. -/
def appC : App :=
  { metadata := { name := "app-c" }
    spec := { source := { repoURL := "https://github.com/acme/infra"
                          path := "tools"
                          targetRevision := "" } }
    status := { sync := { status := .Synced } } }

/-- A subprocess outcome: non-zero exit with diff text on stdout. -/
def resDiffFound : ExecResult :=
  { err := some { message := "exit 1" }, stdout := "--- a\n+++ b", stderr := "" }

/-- A subprocess outcome: non-zero exit with empty stdout. -/
def resFailed : ExecResult :=
  { err := some { message := "exit 20" }, stdout := ""
    stderr := "connection refused" }

/-- A clean `Diff` record for an application. -/
def diffOk (a : App) : Diff := { app := a, diff := "", error := none }

/-- A failed `Diff` record for an application. -/
def diffErr (a : App) : Diff := { app := a, diff := "", error := some resFailed }

/-- Five processed applications of which two failed. -/
def fiveDiffs : List Diff :=
  [diffErr appA, diffErr appB, diffOk appC, diffOk appA, diffOk appB]

/-!
## Claims about the diff runner and the outcome decision
-/

/-- C1: for every diff-tool invocation, a non-zero exit with non-empty
stdout records that stdout as the diff text with no failure record; a
non-zero exit with empty stdout records an empty diff text with a
failure record carrying the captured stderr and underlying error (the
whole `ExecResult`); a zero exit records an empty diff text and no
failure record. -/
theorem C1_diff_classification (app : App) (res : ExecResult) :
    (res.err.isSome = true → res.stdout ≠ "" →
      runDiffStep app res = { app := app, diff := res.stdout, error := none }) ∧
    (res.err.isSome = true → res.stdout = "" →
      runDiffStep app res = { app := app, diff := "", error := some res }) ∧
    (res.err = none →
      runDiffStep app res = { app := app, diff := "", error := none }) := by
  obtain ⟨err, stdout, stderr⟩ := res
  refine ⟨?_, ?_, ?_⟩
  · intro h1 h2
    cases err with
    | none => simp at h1
    | some e => simp only [runDiffStep, if_pos h2]
  · intro h1 h2
    cases err with
    | none => simp at h1
    | some e =>
      subst h2
      simp [runDiffStep]
  · intro h1
    simp only at h1
    subst h1
    rfl

/-- Witness for C1 at a concrete non-zero-exit, non-empty-stdout
invocation. -/
theorem C1_diff_classification_witness :
    runDiffStep appA resDiffFound =
      { app := appA, diff := "--- a\n+++ b", error := none } :=
  (C1_diff_classification appA resDiffFound).1 (by decide) (by decide)

/-- C9: every `Diff` the runner pushes has an empty diff text or no
failure record (so never non-empty diff text together with a failure
record); the stdout-despite-non-zero-exit case lands in the first
disjunct with no failure record. -/
theorem C9_diff_invariant (items : List (App × ExecResult)) :
    ∀ d ∈ runDiffs items, d.diff = "" ∨ d.error = none := by
  intro d hd
  rw [runDiffs, List.mem_map] at hd
  obtain ⟨⟨app, res⟩, _, rfl⟩ := hd
  obtain ⟨err, stdout, stderr⟩ := res
  cases err with
  | none => exact Or.inl rfl
  | some e =>
    by_cases h : stdout = ""
    · subst h
      simp [runDiffStep]
    · simp [runDiffStep, if_pos h]

/-- Witness for C9 on a concrete one-application run. -/
theorem C9_diff_invariant_witness :
    (runDiffStep appA resDiffFound).diff = "" ∨
      (runDiffStep appA resDiffFound).error = none :=
  C9_diff_invariant [(appA, resDiffFound)] (runDiffStep appA resDiffFound)
    (by simp [runDiffs])

/-- C2: with no failure records the run succeeds with no warning; with
failures and the fail-on-errors flag set the run is marked failed, the
message distinguishing the all-failed case from the N-of-M case (the
latter citing "N errors out of M apps"); with failures and the flag
unset only a warning is emitted and no failure is recorded. -/
theorem C2_outcome_decision (failOnErrors : Bool) (diffs : List Diff) :
    ((diffs.filter (fun d => d.error.isSome)).length = 0 →
      decideOutcome failOnErrors diffs = { warned := false, failedMsg := none }) ∧
    ((diffs.filter (fun d => d.error.isSome)).length ≠ 0 →
      (diffs.filter (fun d => d.error.isSome)).length = diffs.length →
      decideOutcome true diffs = { warned := true, failedMsg := some (allFailedMsg (diffs.filter (fun d => d.error.isSome)).length) }) ∧
    ((diffs.filter (fun d => d.error.isSome)).length ≠ 0 →
      (diffs.filter (fun d => d.error.isSome)).length ≠ diffs.length →
      decideOutcome true diffs = { warned := true, failedMsg := some (someFailedMsg (diffs.filter (fun d => d.error.isSome)).length diffs.length) }) ∧
    ((diffs.filter (fun d => d.error.isSome)).length ≠ 0 →
      decideOutcome false diffs = { warned := true, failedMsg := none }) := by
  refine ⟨?_, ?_, ?_, ?_⟩
  · intro h
    simp [decideOutcome, h]
  · intro h1 h2
    have hpos : (diffs.filter (fun d => d.error.isSome)).length > 0 :=
      Nat.pos_of_ne_zero h1
    simp [decideOutcome, hpos, h2]
    intro hnil
    subst hnil
    simp at h1
  · intro h1 h2
    have hpos : (diffs.filter (fun d => d.error.isSome)).length > 0 :=
      Nat.pos_of_ne_zero h1
    simp [decideOutcome, hpos, h2]
  · intro h1
    have hpos : (diffs.filter (fun d => d.error.isSome)).length > 0 :=
      Nat.pos_of_ne_zero h1
    simp [decideOutcome, hpos]

/-- Witness for C2 at the 2-failures-out-of-5-apps scenario with the
flag set: the message cites "2 errors out of 5 apps". -/
theorem C2_outcome_decision_witness :
    decideOutcome true fiveDiffs = { warned := true, failedMsg := some "ArgoCD diff failed: Encountered 2 errors out of 5 apps" } :=
  (C2_outcome_decision true fiveDiffs).2.2.1 (by decide) (by decide)

/-!
## Claims about the application name matcher
-/

/-- C3: a matcher delimited by slashes selects exactly the applications
whose name the inner pattern matches (under the platform regex test
`regexTest`); a non-empty undelimited matcher selects exactly the
applications whose name is in the comma-separated list; an empty
matcher returns the input unchanged. -/
theorem C3_filterAppsByName (regexTest : String → String → Bool)
    (apps : List App) (m : String) :
    (jsStartsWith m "/" = true → jsEndsWith m "/" = true →
      ∀ a, a ∈ filterAppsByName regexTest apps m ↔
        a ∈ apps ∧ regexTest (jsSliceInner m) a.metadata.name = true) ∧
    ((jsStartsWith m "/" && jsEndsWith m "/") = false → m ≠ "" →
      ∀ a, a ∈ filterAppsByName regexTest apps m ↔
        a ∈ apps ∧ a.metadata.name ∈ jsSplitComma m) ∧
    (m = "" → filterAppsByName regexTest apps m = apps) := by
  refine ⟨?_, ?_, ?_⟩
  · intro h1 h2 a
    simp [filterAppsByName, h1, h2, List.mem_filter]
  · intro h1 h2 a
    simp [filterAppsByName, h1, h2, List.mem_filter]
  · intro h
    subst h
    have h1 : jsStartsWith "" "/" = false := by decide
    simp [filterAppsByName, h1]

/-- Witness for C3 at the empty matcher. -/
theorem C3_filterAppsByName_witness :
    filterAppsByName (fun _ _ => true) [appA, appB] "" = [appA, appB] :=
  (C3_filterAppsByName (fun _ _ => true) [appA, appB] "").2.2 rfl

/-- C10: the one-character matcher "/" satisfies both delimiter checks,
so the regex branch runs with the empty inner pattern; since the empty
regular expression matches every name (hypothesis `hEmpty` on the
platform regex test), the whole input list is returned — the matcher is
not treated as a one-element exact-name allow-list. -/
theorem C10_slash_matcher (regexTest : String → String → Bool)
    (apps : List App) (hEmpty : ∀ s, regexTest "" s = true) :
    filterAppsByName regexTest apps "/" = apps := by
  have h1 : (jsStartsWith "/" "/" && jsEndsWith "/" "/") = true := by decide
  have h3 : jsSliceInner "/" = "" := by decide
  simp only [filterAppsByName, h1, if_true, h3]
  exact List.filter_eq_self.mpr (fun a _ => hEmpty _)

/-- Witness for C10 with a concrete regex test satisfying the
empty-pattern hypothesis. -/
theorem C10_slash_matcher_witness :
    filterAppsByName (fun pat _ => pat.isEmpty) [appA, appB, appC] "/" =
      [appA, appB, appC] :=
  C10_slash_matcher (fun pat _ => pat.isEmpty) [appA, appB, appC]
    (fun _ => rfl)

/-!
## Claim C4: affected-application selection
-/

/-- C4: an application is selected as affected iff some changed file
path, once normalized, starts (as a string prefix) with the
application's normalized source path truncated to its first two path
segments (the whole path when it has fewer than two); in the
three-application scenario where the changed files touch only `appB`'s
two-segment prefix, the selector returns exactly `[appB]`. -/
theorem C4_affected_selection (changedFiles : List String) (app : App) :
    (partOfApp changedFiles app = true ↔
      ∃ f ∈ changedFiles, jsStartsWith (pathNormalize f)
        (getFirstTwoDirectories (pathNormalize app.spec.source.path)) = true) ∧
    selectAffected ["services/beta/chart/values.yaml"] [appA, appB, appC] =
      [appB] := by
  constructor
  · simp [partOfApp, List.any_eq_true]
  · decide

/-!
## Claims about the report publisher
-/

/-- C5: after normalization a result is kept iff its diff text is
non-empty or it carries a failure record; a new comment is created iff
the kept list is non-empty; and every existing comment whose body
contains the fixed header is deleted regardless of the results (the
deleted set does not depend on the diff list at all), so with zero kept
results no comment is created but stale comments are still deleted. -/
theorem C5_report_keep_and_comment (nameCmp : String → String → Int)
    (env : String) (comments : List CommentRec) (diffs diffs' : List Diff) :
    (∀ d, d ∈ filteredDiffs nameCmp diffs ↔
      d ∈ diffs.map normalizeDiff ∧ (d.diff ≠ "" ∨ d.error.isSome = true)) ∧
    ((postDiffComment nameCmp env comments diffs).created = true ↔
      filteredDiffs nameCmp diffs ≠ []) ∧
    ((postDiffComment nameCmp env comments diffs).deletedIds =
      (comments.filter (commentMatches env)).map (fun c => c.id)) ∧
    ((postDiffComment nameCmp env comments diffs).deletedIds =
      (postDiffComment nameCmp env comments diffs').deletedIds) := by
  refine ⟨?_, ?_, rfl, rfl⟩
  · intro d
    rw [filteredDiffs, (List.mergeSort_perm _ _).mem_iff]
    simp [keptDiffs, List.mem_filter]
  · simp [postDiffComment, bne_iff_ne, ne_eq, List.length_eq_zero]

/-- C6: in the published order, every result carrying a failure record
is placed after all results without one, and two results with the same
failure status appear in nameCmp order of their application names
(nameCmp being the platform's `localeCompare`, assumed to be a
consistent comparator via `hTrans`/`hTotal`). -/
theorem C6_report_ordering (nameCmp : String → String → Int)
    (hTrans : ∀ x y z, nameCmp x y ≤ 0 → nameCmp y z ≤ 0 → nameCmp x z ≤ 0)
    (hTotal : ∀ x y, nameCmp x y ≤ 0 ∨ nameCmp y x ≤ 0)
    (diffs : List Diff) :
    List.Pairwise (fun a b =>
      (a.error.isSome = true → b.error.isSome = true) ∧
      (a.error.isSome = b.error.isSome →
        nameCmp a.app.metadata.name b.app.metadata.name ≤ 0))
      (filteredDiffs nameCmp diffs) := by
  have key : ∀ a b : Diff, jsSortLe nameCmp a b = true →
      (a.error.isSome = true → b.error.isSome = true) ∧
      (a.error.isSome = b.error.isSome →
        nameCmp a.app.metadata.name b.app.metadata.name ≤ 0) := by
    intro a b hab
    simp only [jsSortLe, decide_eq_true_eq, jsSortCompare] at hab
    cases ha : a.error.isSome <;> cases hb : b.error.isSome <;>
      simp [ha, hb] at hab ⊢ <;> exact hab
  have letrans : ∀ a b c : Diff, jsSortLe nameCmp a b = true →
      jsSortLe nameCmp b c = true → jsSortLe nameCmp a c = true := by
    intro a b c hab hbc
    simp only [jsSortLe, decide_eq_true_eq, jsSortCompare] at hab hbc ⊢
    cases ha : a.error.isSome <;> cases hb : b.error.isSome <;>
      cases hc : c.error.isSome <;> simp [ha, hb, hc] at hab hbc ⊢ <;>
      exact hTrans _ _ _ hab hbc
  have letotal : ∀ a b : Diff,
      (jsSortLe nameCmp a b || jsSortLe nameCmp b a) = true := by
    intro a b
    simp only [jsSortLe, Bool.or_eq_true, decide_eq_true_eq, jsSortCompare]
    cases ha : a.error.isSome <;> cases hb : b.error.isSome <;>
      simp [ha, hb] <;> exact hTotal _ _
  exact (List.sorted_mergeSort letrans letotal (keptDiffs diffs)).imp
    (fun h => key _ _ h)

/-- Witness for C6 with the constant comparator, which satisfies both
comparator hypotheses. -/
theorem C6_report_ordering_witness :
    List.Pairwise (fun a b : Diff =>
      (a.error.isSome = true → b.error.isSome = true) ∧
      (a.error.isSome = b.error.isSome → (0 : Int) ≤ 0))
      (filteredDiffs (fun _ _ => 0) [diffErr appA, diffOk appB]) :=
  C6_report_ordering (fun _ _ => 0) (fun _ _ _ _ _ => Int.le_refl 0)
    (fun _ _ => Or.inl (Int.le_refl 0)) [diffErr appA, diffOk appB]

/-!
## Claim C8: secret scrubbing
-/

/-- C8: the source compiles the captured token as an unescaped regular
expression, so a token containing `.` matches more than its literal
occurrences, and an early spurious match can consume part of a true
literal occurrence.  At the input below the captured token is `a.a`;
the code's output leaves the secret fragment `.a` unmasked, while the
claim's literal-replacement reading (`scrubSecretsSpec`) masks both
literal occurrences. -/
theorem C8_scrub_regex_divergence :
    scrubSecrets "--auth-token=a.a and aaa.a" = "--auth-token=*** and ***.a" ∧
    scrubSecretsSpec "--auth-token=a.a and aaa.a" =
      "--auth-token=*** and aa***" ∧
    scrubSecrets "--auth-token=a.a and aaa.a" ≠
      scrubSecretsSpec "--auth-token=a.a and aaa.a" :=
  ⟨by decide, by decide, by decide⟩

/-!
## Helper lemmas: prefixes and substrings
-/

theorem isPrefixOf_iff (pat l : List Char) :
    pat.isPrefixOf l = true ↔ ∃ r, l = pat ++ r := by
  induction pat generalizing l with
  | nil => simp [List.isPrefixOf]
  | cons p ps ih =>
    cases l with
    | nil => simp [List.isPrefixOf]
    | cons c cs =>
      simp only [List.isPrefixOf, Bool.and_eq_true, beq_iff_eq, ih,
        List.cons_append, List.cons.injEq]
      constructor
      · rintro ⟨rfl, r, rfl⟩
        exact ⟨r, rfl, rfl⟩
      · rintro ⟨r, rfl, rfl⟩
        exact ⟨rfl, r, rfl⟩

theorem isPrefixOf_append_ext (pat a b : List Char)
    (h : pat.isPrefixOf a = true) : pat.isPrefixOf (a ++ b) = true := by
  rw [isPrefixOf_iff] at h ⊢
  obtain ⟨r, rfl⟩ := h
  exact ⟨r ++ b, by simp⟩

theorem prefix_through_newline {pat : List Char} (hnl : '\n' ∉ pat) :
    ∀ a b : List Char, pat.isPrefixOf (a ++ '\n' :: b) = true →
      pat.isPrefixOf a = true := by
  induction pat with
  | nil => intro a b _; simp [List.isPrefixOf]
  | cons p ps ih =>
    intro a b h
    cases a with
    | nil =>
      exfalso
      simp only [List.nil_append, List.isPrefixOf, Bool.and_eq_true,
        beq_iff_eq] at h
      exact hnl (by simp [h.1])
    | cons c a' =>
      simp only [List.cons_append, List.isPrefixOf, Bool.and_eq_true,
        beq_iff_eq] at h ⊢
      exact ⟨h.1, ih (fun hm => hnl (List.mem_cons_of_mem _ hm)) a' b h.2⟩

theorem containsSub_nil_pat : ∀ l : List Char, containsSub [] l = true := by
  intro l
  cases l <;> simp [containsSub, List.isPrefixOf]

theorem containsSub_nil_iff (pat : List Char) :
    containsSub pat [] = true ↔ pat = [] := by
  rw [show containsSub pat [] = pat.isPrefixOf [] from rfl, isPrefixOf_iff]
  constructor
  · rintro ⟨r, hr⟩
    exact (List.append_eq_nil.mp hr.symm).1
  · rintro rfl
    exact ⟨[], rfl⟩

theorem containsSub_head (pat l : List Char) (h : pat.isPrefixOf l = true) :
    containsSub pat l = true := by
  cases l with
  | nil => simpa [containsSub] using h
  | cons c r => simp [containsSub, h]

theorem containsSub_of_drop (pat : List Char) :
    ∀ (l : List Char) (n : Nat), pat.isPrefixOf (l.drop n) = true →
      containsSub pat l = true := by
  intro l
  induction l with
  | nil =>
    intro n h
    exact containsSub_head _ _ (by simpa using h)
  | cons c rest ih =>
    intro n h
    cases n with
    | zero => exact containsSub_head _ _ h
    | succ m =>
      have hr := ih m (by simpa using h)
      simp [containsSub, hr]

theorem containsSub_append_left (pat a b : List Char)
    (h : containsSub pat b = true) : containsSub pat (a ++ b) = true := by
  induction a with
  | nil => simpa
  | cons c a' ih => simp [containsSub, ih]

theorem containsSub_append_right (pat a b : List Char)
    (h : containsSub pat a = true) : containsSub pat (a ++ b) = true := by
  induction a with
  | nil =>
    rw [containsSub_nil_iff] at h
    subst h
    exact containsSub_nil_pat _
  | cons c a' ih =>
    simp only [containsSub, Bool.or_eq_true] at h
    rcases h with h | h
    · simp only [List.cons_append, containsSub, Bool.or_eq_true]
      exact Or.inl (by simpa using isPrefixOf_append_ext pat (c :: a') b h)
    · simp only [List.cons_append, containsSub, Bool.or_eq_true]
      exact Or.inr (ih h)

theorem containsSub_sub (pat x m y : List Char)
    (h : containsSub pat m = true) :
    containsSub pat (x ++ m ++ y) = true := by
  rw [List.append_assoc]
  exact containsSub_append_left _ _ _ (containsSub_append_right _ _ _ h)

theorem containsSub_split_newline {pat : List Char} (hnl : '\n' ∉ pat) :
    ∀ a b : List Char, containsSub pat (a ++ '\n' :: b) = true →
      containsSub pat a = true ∨ containsSub pat b = true := by
  intro a
  induction a with
  | nil =>
    intro b h
    simp only [List.nil_append, containsSub, Bool.or_eq_true] at h
    rcases h with h | h
    · cases pat with
      | nil => exact Or.inl (containsSub_nil_pat _)
      | cons p ps =>
        exfalso
        simp only [List.isPrefixOf, Bool.and_eq_true, beq_iff_eq] at h
        exact hnl (by simp [h.1])
    · exact Or.inr h
  | cons c a' ih =>
    intro b h
    simp only [List.cons_append, containsSub, Bool.or_eq_true] at h
    rcases h with h | h
    · refine Or.inl (containsSub_head _ _ ?_)
      exact prefix_through_newline hnl (c :: a') b (by simpa using h)
    · rcases ih b h with h' | h'
      · exact Or.inl (by simp [containsSub, h'])
      · exact Or.inr h'

theorem containsSub_joinNl {pat : List Char} (hnl : '\n' ∉ pat)
    (hne : pat ≠ []) :
    ∀ K : List (List Char), containsSub pat (joinNl K) = true →
      ∃ q ∈ K, containsSub pat q = true := by
  intro K
  induction K with
  | nil =>
    intro h
    rw [joinNl, containsSub_nil_iff] at h
    exact absurd h hne
  | cons q qs ih =>
    cases qs with
    | nil =>
      intro h
      exact ⟨q, by simp, by simpa [joinNl] using h⟩
    | cons q2 qs2 =>
      intro h
      rw [show joinNl (q :: q2 :: qs2) = q ++ '\n' :: joinNl (q2 :: qs2)
        from rfl] at h
      rcases containsSub_split_newline hnl q _ h with h' | h'
      · exact ⟨q, by simp, h'⟩
      · obtain ⟨r, hr, hcr⟩ := ih h'
        exact ⟨r, by simp [hr], hcr⟩

/-!
## Helper lemmas: each replacement matcher requires its literal key
-/

theorem core1_key : ∀ (l : List Char) (n : Nat), core1 l = some n →
    ∃ m, instKey.isPrefixOf (l.drop m) = true := by
  intro l n h
  unfold core1 at h
  split at h
  · rename_i l1
    dsimp only at h
    split at h
    · exact absurd h (by simp)
    · split at h
      · rename_i hpre
        exact ⟨wsCount l1 + 1, by simpa using hpre⟩
      · exact absurd h (by simp)
  · exact absurd h (by simp)

theorem tryMatch1_key : ∀ (l : List Char) (n : Nat), tryMatch1 l = some n →
    ∃ m, instKey.isPrefixOf (l.drop m) = true := by
  intro l n h
  unfold tryMatch1 at h
  split at h
  · rename_i mk hmk
    split at h
    · rename_i k hk
      obtain ⟨m2, hm2⟩ := core1_key _ _ hk
      exact ⟨mk + m2, by simpa [List.drop_drop] using hm2⟩
    · exact core1_key _ _ h
  · exact core1_key _ _ h

theorem matchPartOfKey_key : ∀ (l : List Char) (k : Nat),
    matchPartOfKey l = some k →
    ∃ m, partKey.isPrefixOf (l.drop m) = true := by
  intro l k h
  unfold matchPartOfKey at h
  split at h
  · split at h
    · rename_i c1 l4 heq1
      split at h
      · split at h
        · rename_i c2 l5 heq2
          split at h
          · rename_i hcond
            refine ⟨15, ?_⟩
            have h5 : l.drop 15 = l5 := by
              have e1 : l.drop 15 = (l.drop 3).drop 12 := by
                rw [List.drop_drop]
              rw [e1, heq1]
              have e2 : (c1 :: l4).drop 12 = (l4.drop 10).drop 1 := by
                rw [List.drop_drop]
                exact List.drop_succ_cons
              rw [e2, heq2]
              rfl
            rw [h5]
            have := (Bool.and_eq_true _ _).mp hcond
            exact this.2
          · exact absurd h (by simp)
        · exact absurd h (by simp)
      · exact absurd h (by simp)
    · exact absurd h (by simp)
  · exact absurd h (by simp)

theorem core2_key : ∀ (l : List Char) (n : Nat), core2 l = some n →
    ∃ m, partKey.isPrefixOf (l.drop m) = true := by
  intro l n h
  unfold core2 at h
  split at h
  · rename_i l1
    dsimp only at h
    split at h
    · exact absurd h (by simp)
    · split at h
      · rename_i k hk
        obtain ⟨m, hm⟩ := matchPartOfKey_key _ _ hk
        refine ⟨wsCount l1 + m + 1, ?_⟩
        have e1 : ('<' :: l1).drop (wsCount l1 + m + 1) =
            (l1.drop (wsCount l1)).drop m := by
          rw [List.drop_succ_cons, List.drop_drop]
        rw [e1]
        exact hm
      · exact absurd h (by simp)
  · exact absurd h (by simp)

theorem tryMatch2_key : ∀ (l : List Char) (n : Nat), tryMatch2 l = some n →
    ∃ m, partKey.isPrefixOf (l.drop m) = true := by
  intro l n h
  unfold tryMatch2 at h
  split at h
  · rename_i mk hmk
    split at h
    · rename_i k hk
      obtain ⟨m2, hm2⟩ := core2_key _ _ hk
      exact ⟨mk + m2, by simpa [List.drop_drop] using hm2⟩
    · exact core2_key _ _ h
  · exact core2_key _ _ h

/-!
## Helper lemmas: the global replace is the identity on key-free text
-/

theorem replAux_no_match (tryM : List Char → Option Nat) (repl : List Char) :
    ∀ (l : List Char) (fuel : Nat), (∀ n, tryM (l.drop n) = none) →
      replAux tryM repl fuel l = l := by
  intro l
  induction l with
  | nil => intro fuel _; cases fuel <;> rfl
  | cons c rest ih =>
    intro fuel hnone
    cases fuel with
    | zero => rfl
    | succ f =>
      have h0 := hnone 0
      simp only [List.drop_zero] at h0
      simp only [replAux, h0]
      rw [ih f (fun n => by simpa using hnone (n + 1))]

theorem replace1_clean (l : List Char)
    (h : containsSub instKey l = false) :
    jsReplaceAll tryMatch1 [] l = l := by
  apply replAux_no_match
  intro n
  by_contra hne
  obtain ⟨k, hk⟩ := Option.ne_none_iff_exists'.mp hne
  obtain ⟨m, hm⟩ := tryMatch1_key _ _ hk
  have hc := containsSub_of_drop instKey l (n + m)
    (by simpa [List.drop_drop] using hm)
  simp [hc] at h

theorem replace2_clean (l : List Char)
    (h : containsSub partKey l = false) :
    jsReplaceAll tryMatch2 [] l = l := by
  apply replAux_no_match
  intro n
  by_contra hne
  obtain ⟨k, hk⟩ := Option.ne_none_iff_exists'.mp hne
  obtain ⟨m, hm⟩ := tryMatch2_key _ _ hk
  have hc := containsSub_of_drop partKey l (n + m)
    (by simpa [List.drop_drop] using hm)
  simp [hc] at h

/-!
## Helper lemmas: trimming
-/

theorem dropWhile_shape (p : Char → Bool) (l : List Char) :
    l.dropWhile p = [] ∨ ∃ a r, l.dropWhile p = a :: r ∧ p a = false := by
  induction l with
  | nil => exact Or.inl rfl
  | cons c rest ih =>
    by_cases hc : p c = true
    · simpa [List.dropWhile_cons, hc] using ih
    · exact Or.inr ⟨c, rest, by simp [List.dropWhile_cons, hc],
        by simpa using hc⟩

theorem jsTrim_decomp (l : List Char) : ∃ x y, l = x ++ jsTrim l ++ y := by
  refine ⟨l.takeWhile jsWhitespace,
    ((l.dropWhile jsWhitespace).reverse.takeWhile jsWhitespace).reverse, ?_⟩
  conv_lhs => rw [← List.takeWhile_append_dropWhile jsWhitespace l]
  rw [List.append_assoc]
  congr 1
  unfold jsTrim
  conv_lhs => rw [← List.reverse_reverse (l.dropWhile jsWhitespace),
    ← List.takeWhile_append_dropWhile jsWhitespace
      (l.dropWhile jsWhitespace).reverse]
  rw [List.reverse_append]

theorem containsSub_jsTrim (pat l : List Char)
    (h : containsSub pat (jsTrim l) = true) : containsSub pat l = true := by
  obtain ⟨x, y, hd⟩ := jsTrim_decomp l
  rw [hd]
  exact containsSub_sub _ _ _ _ h

theorem getLast?_of_suffix {t x : List Char} (h : t <:+ x) (hne : t ≠ []) :
    t.getLast? = x.getLast? := by
  obtain ⟨w, rfl⟩ := h
  rw [List.getLast?_append]
  cases hgl : t.getLast? with
  | none => exact absurd (List.getLast?_eq_none_iff.mp hgl) hne
  | some b => rfl

theorem lastClean_reverse_dropWhile {l : List Char} (hne : l ≠ [])
    (h : ∀ b, l.getLast? = some b → jsWhitespace b = false) :
    l.reverse.dropWhile jsWhitespace = l.reverse := by
  cases hgl : l.getLast? with
  | none => exact absurd (List.getLast?_eq_none_iff.mp hgl) hne
  | some b =>
    obtain ⟨rs, hrs⟩ : ∃ rs, l.reverse = b :: rs := by
      cases hrev : l.reverse with
      | nil =>
        exfalso
        apply hne
        rw [← List.reverse_reverse l, hrev]
        rfl
      | cons d ds =>
        have hh : l.reverse.head? = some d := by rw [hrev]; rfl
        rw [List.head?_reverse, hgl] at hh
        injection hh with hdb
        exact ⟨ds, by rw [hdb]⟩
    rw [hrs, List.dropWhile_cons, if_neg (by simp [h b hgl])]

theorem jsTrim_fixed {l : List Char} (h : edgeClean l) : jsTrim l = l := by
  cases l with
  | nil => rfl
  | cons c r =>
    have hc : jsWhitespace c = false := h.1 c rfl
    unfold jsTrim
    rw [List.dropWhile_cons, if_neg (by simp [hc])]
    rw [lastClean_reverse_dropWhile (by simp) h.2, List.reverse_reverse]

theorem jsTrim_edges (l : List Char) :
    jsTrim l = [] ∨ edgeClean (jsTrim l) := by
  by_cases hz : jsTrim l = []
  · exact Or.inl hz
  · right
    unfold jsTrim at hz ⊢
    rcases dropWhile_shape jsWhitespace (l.dropWhile jsWhitespace).reverse
      with h2 | ⟨a, r2, h2, ha⟩
    · rw [h2] at hz
      simp at hz
    · constructor
      · intro x hx
        rw [List.head?_reverse] at hx
        have hsuf := List.dropWhile_suffix
          (l := (l.dropWhile jsWhitespace).reverse) jsWhitespace
        have hEq := getLast?_of_suffix hsuf (by rw [h2]; simp)
        rw [hEq, List.getLast?_reverse] at hx
        rcases dropWhile_shape jsWhitespace l with h1 | ⟨b, r1, h1, hb⟩
        · rw [h1] at hx
          simp at hx
        · rw [h1] at hx
          injection hx with hbx
          rw [← hbx]
          exact hb
      · intro y hy
        rw [List.getLast?_reverse, h2] at hy
        simp only [List.head?_cons, Option.some.injEq] at hy
        rw [← hy]
        exact ha

theorem jsTrim_idem (l : List Char) : jsTrim (jsTrim l) = jsTrim l := by
  rcases jsTrim_edges l with h | h
  · rw [h]
    rfl
  · exact jsTrim_fixed h

theorem getLast?_append_newline {a b : List Char} (hbne : b ≠ []) :
    (a ++ '\n' :: b).getLast? = b.getLast? := by
  have h1 : ('\n' :: b).getLast? = b.getLast? := by
    obtain ⟨c, r, rfl⟩ := List.exists_cons_of_ne_nil hbne
    exact List.getLast?_cons_cons
  rw [List.getLast?_append, h1]
  cases hgl : b.getLast? with
  | none => exact absurd (List.getLast?_eq_none_iff.mp hgl) hbne
  | some y => rfl

theorem edgeClean_append {a b : List Char} (ha : edgeClean a)
    (hb : edgeClean b) (hane : a ≠ []) (hbne : b ≠ []) :
    edgeClean (a ++ '\n' :: b) := by
  constructor
  · intro x hx
    rw [List.head?_append_of_ne_nil _ hane] at hx
    exact ha.1 x hx
  · intro y hy
    rw [getLast?_append_newline hbne] at hy
    exact hb.2 y hy

theorem jsTrim_append_newline {l : List Char} (h : edgeClean l)
    (hne : l ≠ []) : jsTrim (l ++ ['\n']) = l := by
  obtain ⟨c, r, rfl⟩ := List.exists_cons_of_ne_nil hne
  have hc : jsWhitespace c = false := h.1 c rfl
  unfold jsTrim
  rw [List.cons_append, List.dropWhile_cons, if_neg (by simp [hc])]
  have hrev : (c :: (r ++ ['\n'])).reverse = '\n' :: (c :: r).reverse := by
    rw [← List.cons_append, List.reverse_append]
    rfl
  rw [hrev, List.dropWhile_cons, if_pos (by decide)]
  rw [lastClean_reverse_dropWhile (by simp) h.2, List.reverse_reverse]

theorem joinNl_cons_ne {q : List Char} (qs : List (List Char))
    (hq : q ≠ []) : joinNl (q :: qs) ≠ [] := by
  cases qs with
  | nil => simpa [joinNl]
  | cons q2 r => simp [joinNl]

theorem edgeClean_joinNl : ∀ (K : List (List Char)),
    (∀ q ∈ K, q ≠ [] ∧ edgeClean q) → K ≠ [] → edgeClean (joinNl K) := by
  intro K
  induction K with
  | nil => intro _ h; exact absurd rfl h
  | cons q qs ih =>
    intro hall _
    cases qs with
    | nil => simpa [joinNl] using (hall q (by simp)).2
    | cons q2 r =>
      have hq := hall q (by simp)
      have hrest := ih (fun p hp => hall p (by simp [hp])) (by simp)
      rw [show joinNl (q :: q2 :: r) = q ++ '\n' :: joinNl (q2 :: r) from rfl]
      exact edgeClean_append hq.2 hrest hq.1
        (joinNl_cons_ne r (hall q2 (by simp)).1)

/-!
## Helper lemmas: the section splitter
-/

theorem splitSecAux_flatten : ∀ (l acc : List Char),
    (splitSecAux acc l).flatten = acc.reverse ++ l := by
  intro l
  induction l with
  | nil => intro acc; simp [splitSecAux]
  | cons c rest ih =>
    intro acc
    rw [splitSecAux]
    by_cases hcut : (lineTerm c && headerMark.isPrefixOf rest) = true
    · rw [if_pos hcut]
      simp [ih []]
    · rw [if_neg hcut, ih (c :: acc)]
      simp

theorem containsSub_of_section {l p : List Char}
    (hp : p ∈ splitSections l) (pat : List Char)
    (h : containsSub pat p = true) : containsSub pat l = true := by
  obtain ⟨s, t, hst⟩ := List.append_of_mem hp
  have hfl : (splitSections l).flatten = l := by
    simpa using splitSecAux_flatten l []
  rw [← hfl, hst]
  simp only [List.flatten_append, List.flatten_cons]
  rw [← List.append_assoc]
  exact containsSub_sub _ _ _ _ h

theorem snoc_split {a : List Char} {u : Char} {x y : List Char} {t : Char}
    (h : a ++ [u] = x ++ t :: y) :
    (y = [] ∧ a = x ∧ t = u) ∨ ∃ y', y = y' ++ [u] ∧ a = x ++ t :: y' := by
  rcases List.eq_nil_or_concat y with rfl | ⟨y', v, rfl⟩
  · have hlen : a.length = x.length := by
      have := congrArg List.length h
      simpa using this
    obtain ⟨h1, h2⟩ := List.append_inj h hlen
    injection h2 with h2
    exact Or.inl ⟨rfl, h1, h2.symm⟩
  · right
    rw [List.concat_eq_append] at h
    have h' : a ++ [u] = (x ++ t :: y') ++ [v] := by
      rw [h]
      simp
    have hlen : a.length = (x ++ t :: y').length := by
      have hl := congrArg List.length h'
      simp at hl ⊢
      omega
    obtain ⟨h1, h2⟩ := List.append_inj h' hlen
    injection h2 with h2
    exact ⟨y', by rw [List.concat_eq_append, h2], h1⟩

theorem splitSecAux_noBound : ∀ (l acc : List Char),
    (∀ x t y, acc.reverse = x ++ t :: y → lineTerm t = true →
      headerMark.isPrefixOf (y ++ l) = false) →
    ∀ p ∈ splitSecAux acc l, NoBound p := by
  intro l
  induction l with
  | nil =>
    intro acc hinv p hp
    simp only [splitSecAux, List.mem_singleton] at hp
    subst hp
    intro x t y hxy ht
    simpa using hinv x t y hxy ht
  | cons c rest ih =>
    intro acc hinv p hp
    rw [splitSecAux] at hp
    by_cases hcut : (lineTerm c && headerMark.isPrefixOf rest) = true
    · rw [if_pos hcut] at hp
      rcases List.mem_cons.mp hp with rfl | hp'
      · intro x t y hxy ht
        rw [List.reverse_cons] at hxy
        rcases snoc_split hxy with ⟨rfl, hax, rfl⟩ | ⟨y', rfl, hacc⟩
        · -- the boundary candidate sits at the final character of the
          -- piece, so nothing follows it inside the piece and the
          -- six-character marker cannot be a prefix of the empty rest
          decide
        · have := hinv x t y' hacc ht
          by_contra hy
          have hy' : headerMark.isPrefixOf (y' ++ [c]) = true := by
            simpa using hy
          have hext := isPrefixOf_append_ext _ _ rest hy'
          rw [show (y' ++ [c]) ++ rest = y' ++ c :: rest by simp] at hext
          simp [hext] at this
      · refine ih [] ?_ p hp'
        intro x t y hxy
        exact absurd hxy.symm (by simp)
    · rw [if_neg hcut] at hp
      refine ih (c :: acc) ?_ p hp
      intro x t y hxy ht
      rw [List.reverse_cons] at hxy
      rcases snoc_split hxy with ⟨rfl, hax, rfl⟩ | ⟨y', rfl, hacc⟩
      · simp only [List.nil_append]
        cases hb : headerMark.isPrefixOf rest with
        | false => rfl
        | true => exact absurd (by simp [ht, hb] : (lineTerm t && headerMark.isPrefixOf rest) = true) hcut
      · have := hinv x t y' hacc ht
        rw [show (y' ++ [c]) ++ rest = y' ++ c :: rest by simp]
        exact this

theorem splitSections_noBound {l : List Char} :
    ∀ p ∈ splitSections l, NoBound p := by
  refine splitSecAux_noBound l [] ?_
  intro x t y hxy
  exact absurd hxy.symm (by simp)

theorem NoBound_jsTrim {p : List Char} (h : NoBound p) :
    NoBound (jsTrim p) := by
  obtain ⟨w1, w2, hd⟩ := jsTrim_decomp p
  intro x t y hxy ht
  have hp : p = (w1 ++ x) ++ t :: (y ++ w2) := by
    rw [hd, hxy]
    simp
  have hfalse := h _ _ _ hp ht
  by_contra hy
  have hy' : headerMark.isPrefixOf y = true := by simpa using hy
  have := isPrefixOf_append_ext _ _ w2 hy'
  simp [this] at hfalse

theorem splitSecAux_absorb : ∀ (q acc r : List Char),
    (∀ x t y, q = x ++ t :: y → lineTerm t = true →
      headerMark.isPrefixOf (y ++ r) = false) →
    splitSecAux acc (q ++ r) = splitSecAux (q.reverse ++ acc) r := by
  intro q
  induction q with
  | nil => intro acc r _; simp
  | cons c q' ih =>
    intro acc r hnb
    rw [List.cons_append, splitSecAux]
    have hcond : (lineTerm c && headerMark.isPrefixOf (q' ++ r)) = false := by
      by_cases hc : lineTerm c = true
      · have := hnb [] c q' rfl hc
        simp [hc, this]
      · simp [Bool.not_eq_true] at hc
        simp [hc]
    rw [if_neg (by simp [hcond])]
    rw [ih (c :: acc) r
      (fun x t y hxy ht => hnb (c :: x) t y (by rw [hxy]; rfl) ht)]
    congr 1
    simp

theorem headerOnly_append_newline (a b : List Char) :
    headerOnly (a ++ '\n' :: b) = false := by
  have hall : (a ++ '\n' :: b).all (fun c => !lineTerm c) = false := by
    have h1 : (!lineTerm '\n') = false := by decide
    simp [List.all_append, List.all_cons, h1]
  unfold headerOnly
  rw [hall]
  simp

/-!
## Helper lemmas: the clean pipeline
-/

theorem processSection_clean {s : List Char}
    (h1 : containsSub instKey s = false)
    (h2 : containsSub partKey s = false) :
    processSection s = jsTrim s := by
  unfold processSection
  rw [replace1_clean s h1]
  have h2' : containsSub partKey (jsTrim s) = false := by
    cases hb : containsSub partKey (jsTrim s) with
    | false => rfl
    | true => exact absurd (containsSub_jsTrim _ _ hb) (by simp [h2])
  rw [replace2_clean _ h2', jsTrim_idem]

theorem filterDiffL_clean {l : List Char}
    (h1 : containsSub instKey l = false)
    (h2 : containsSub partKey l = false) :
    filterDiffL l = jsTrim (pipeTail (splitSections l)) := by
  have hmap : (splitSections l).map processSection =
      (splitSections l).map jsTrim := by
    apply List.map_congr_left
    intro p hp
    apply processSection_clean
    · cases hb : containsSub instKey p with
      | false => rfl
      | true => exact absurd (containsSub_of_section hp _ hb) (by simp [h1])
    · cases hb : containsSub partKey p with
      | false => rfl
      | true => exact absurd (containsSub_of_section hp _ hb) (by simp [h2])
  simp only [filterDiffL, pipeTail, keptSecs, hmap]

theorem kept_props {l q : List Char}
    (hq : q ∈ keptSecs (splitSections l)) :
    q ≠ [] ∧ edgeClean q ∧ NoBound q ∧ headerOnly q = false ∧
    ∃ p ∈ splitSections l, q = jsTrim p := by
  rw [keptSecs, List.mem_filter] at hq
  obtain ⟨hq1, hq2⟩ := hq
  rw [List.mem_filter] at hq1
  obtain ⟨hq0, hne⟩ := hq1
  rw [List.mem_map] at hq0
  obtain ⟨p, hp, rfl⟩ := hq0
  have hne' : jsTrim p ≠ [] := by simpa using hne
  refine ⟨hne', ?_, ?_, ?_, p, hp, rfl⟩
  · rcases jsTrim_edges p with h | h
    · exact absurd h hne'
    · exact h
  · exact NoBound_jsTrim (splitSections_noBound p hp)
  · simpa using hq2

theorem keptSecs_cons_keep {p : List Char} (ps : List (List Char))
    (hne : jsTrim p ≠ []) (hho : headerOnly (jsTrim p) = false) :
    keptSecs (p :: ps) = jsTrim p :: keptSecs ps := by
  rw [keptSecs, List.map_cons, List.filter_cons, if_pos (by simpa using hne),
    List.filter_cons, if_pos (by simp [hho]), keptSecs]

theorem joinNl_eq_joinTail : ∀ (qs : List (List Char)) (q : List Char),
    joinNl (q :: qs) = q ++ joinTail qs := by
  intro qs
  induction qs with
  | nil => intro q; simp [joinNl, joinTail]
  | cons q2 r ih =>
    intro q
    rw [show joinNl (q :: q2 :: r) = q ++ '\n' :: joinNl (q2 :: r) from rfl,
      joinTail, ih q2]

theorem noBound_block {q : List Char} (hq : NoBound q)
    (qs : List (List Char)) :
    ∀ x t y, q = x ++ t :: y → lineTerm t = true →
      headerMark.isPrefixOf (y ++ joinTail qs) = false := by
  intro x t y hxy ht
  have hy := hq x t y hxy ht
  cases qs with
  | nil => simpa [joinTail] using hy
  | cons q2 r =>
    rw [joinTail]
    cases hb : headerMark.isPrefixOf (y ++ '\n' :: (q2 ++ joinTail r)) with
    | false => rfl
    | true =>
      have := prefix_through_newline (by decide) y _ hb
      simp [this] at hy

theorem noBound_append {a b : List Char} (ha : NoBound a) (hb : NoBound b)
    (hj : headerMark.isPrefixOf b = false) : NoBound (a ++ '\n' :: b) := by
  intro x t y hxy ht
  rcases List.append_eq_append_iff.mp hxy with ⟨w, hw1, hw2⟩ | ⟨w, hw1, hw2⟩
  · cases w with
    | nil =>
      simp only [List.nil_append] at hw2
      injection hw2 with ht2 hy2
      rw [← hy2]
      exact hj
    | cons u w' =>
      simp only [List.cons_append] at hw2
      injection hw2 with hu hb2
      exact hb w' t y hb2 ht
  · cases w with
    | nil =>
      simp only [List.nil_append] at hw2
      injection hw2 with ht2 hy2
      rw [hy2]
      exact hj
    | cons u w' =>
      simp only [List.cons_append] at hw2
      injection hw2 with htu hy2
      subst htu
      rw [hy2]
      by_contra hcon
      have hcon' : headerMark.isPrefixOf (w' ++ '\n' :: b) = true := by
        simpa using hcon
      have hw'true := prefix_through_newline (by decide) w' b hcon'
      have := ha x t w' hw1 ht
      simp [hw'true] at this

theorem pipeTail_join : ∀ (qs : List (List Char)) (cur : List Char),
    cur ≠ [] → edgeClean cur → NoBound cur → headerOnly cur = false →
    (∀ q ∈ qs, q ≠ [] ∧ edgeClean q ∧ NoBound q ∧ headerOnly q = false) →
    pipeTail (splitSecAux cur.reverse (joinTail qs)) = cur ++ joinTail qs := by
  intro qs
  induction qs with
  | nil =>
    intro cur hne hec hnb hho _
    rw [joinTail]
    rw [show splitSecAux cur.reverse [] = [cur] by
      rw [splitSecAux, List.reverse_reverse]]
    rw [pipeTail, keptSecs_cons_keep [] (by rw [jsTrim_fixed hec]; exact hne)
      (by rw [jsTrim_fixed hec]; exact hho)]
    rw [jsTrim_fixed hec]
    rw [show keptSecs [] = [] from rfl]
    rw [show joinNl [cur] = cur from rfl]
    simp
  | cons q qs' ih =>
    intro cur hne hec hnb hho hall
    obtain ⟨hqne, hqec, hqnb, hqho⟩ := hall q (by simp)
    have hall' : ∀ p ∈ qs',
        p ≠ [] ∧ edgeClean p ∧ NoBound p ∧ headerOnly p = false :=
      fun p hp => hall p (by simp [hp])
    rw [joinTail, splitSecAux]
    have hcondEq : headerMark.isPrefixOf (q ++ joinTail qs') =
        headerMark.isPrefixOf q := by
      cases qs' with
      | nil => simp [joinTail]
      | cons q2 r =>
        rw [joinTail]
        cases hb : headerMark.isPrefixOf q with
        | true => exact isPrefixOf_append_ext _ q _ hb
        | false =>
          cases hb2 : headerMark.isPrefixOf
              (q ++ '\n' :: (q2 ++ joinTail r)) with
          | false => rfl
          | true =>
            have hq' := prefix_through_newline (by decide) q _ hb2
            rw [hq'] at hb
            exact absurd hb (by simp)
    by_cases hq : headerMark.isPrefixOf q = true
    · rw [if_pos
        (by simp [hcondEq, hq, (by decide : lineTerm '\n' = true)])]
      rw [show ('\n' :: cur.reverse).reverse = cur ++ ['\n'] by
        rw [List.reverse_cons, List.reverse_reverse]]
      rw [splitSecAux_absorb q [] (joinTail qs') (noBound_block hqnb qs')]
      rw [List.append_nil]
      have hih := ih q hqne hqec hqnb hqho hall'
      rw [pipeTail, keptSecs_cons_keep _
        (by rw [jsTrim_append_newline hec hne]; exact hne)
        (by rw [jsTrim_append_newline hec hne]; exact hho)]
      rw [jsTrim_append_newline hec hne]
      have hKne : keptSecs (splitSecAux q.reverse (joinTail qs')) ≠ [] := by
        intro h0
        rw [pipeTail, h0] at hih
        have h00 : ([] : List Char) = q ++ joinTail qs' := hih
        cases q with
        | nil => exact hqne rfl
        | cons a b => simp at h00
      obtain ⟨f, fs, hF⟩ := List.exists_cons_of_ne_nil hKne
      rw [hF]
      rw [show joinNl (cur :: f :: fs) = cur ++ '\n' :: joinNl (f :: fs)
        from rfl]
      rw [← hF]
      rw [show joinNl (keptSecs (splitSecAux q.reverse (joinTail qs'))) =
        pipeTail (splitSecAux q.reverse (joinTail qs')) from rfl]
      rw [hih]
    · have hq' : headerMark.isPrefixOf q = false := by
        cases hb : headerMark.isPrefixOf q with
        | false => rfl
        | true => exact absurd hb hq
      rw [if_neg (by simp [hcondEq, hq'])]
      rw [splitSecAux_absorb q ('\n' :: cur.reverse) (joinTail qs')
        (noBound_block hqnb qs')]
      have hrev : q.reverse ++ '\n' :: cur.reverse =
          (cur ++ '\n' :: q).reverse := by
        rw [List.reverse_append]
        simp
      rw [hrev]
      have hih := ih (cur ++ '\n' :: q) (by simp)
        (edgeClean_append hec hqec hne hqne)
        (noBound_append hnb hqnb hq')
        (headerOnly_append_newline cur q)
        hall'
      rw [hih]
      simp

theorem filterDiffL_idem_clean {l : List Char}
    (h1 : containsSub instKey l = false)
    (h2 : containsSub partKey l = false) :
    filterDiffL (filterDiffL l) = filterDiffL l := by
  have hstep := filterDiffL_clean h1 h2
  have hprops : ∀ q ∈ keptSecs (splitSections l),
      q ≠ [] ∧ edgeClean q ∧ NoBound q ∧ headerOnly q = false := by
    intro q hq
    obtain ⟨a, b, c, d, _⟩ := kept_props hq
    exact ⟨a, b, c, d⟩
  cases hKc : keptSecs (splitSections l) with
  | nil =>
    rw [hstep, pipeTail, hKc]
    rfl
  | cons q1 qs =>
    have hq1 := hprops q1 (by rw [hKc]; simp)
    have hqs : ∀ p ∈ qs,
        p ≠ [] ∧ edgeClean p ∧ NoBound p ∧ headerOnly p = false :=
      fun p hp => hprops p (by rw [hKc]; simp [hp])
    have hecK : edgeClean (joinNl (q1 :: qs)) := by
      apply edgeClean_joinNl
      · intro p hp
        have := hprops p (by rw [hKc]; exact hp)
        exact ⟨this.1, this.2.1⟩
      · simp
    have hfl : filterDiffL l = joinNl (q1 :: qs) := by
      rw [hstep, pipeTail, hKc, jsTrim_fixed hecK]
    have hsub : ∀ pat : List Char, pat ≠ [] → '\n' ∉ pat →
        containsSub pat l = false →
        containsSub pat (joinNl (q1 :: qs)) = false := by
      intro pat hpne hpnl hcl
      cases hb : containsSub pat (joinNl (q1 :: qs)) with
      | false => rfl
      | true =>
        exfalso
        obtain ⟨q, hqmem, hqc⟩ := containsSub_joinNl hpnl hpne _ hb
        have hqK : q ∈ keptSecs (splitSections l) := by rw [hKc]; exact hqmem
        obtain ⟨_, _, _, _, p, hp, rfl⟩ := kept_props hqK
        have := containsSub_of_section hp pat (containsSub_jsTrim _ _ hqc)
        simp [this] at hcl
    have hK1 : containsSub instKey (joinNl (q1 :: qs)) = false :=
      hsub instKey (by decide) (by decide) h1
    have hK2 : containsSub partKey (joinNl (q1 :: qs)) = false :=
      hsub partKey (by decide) (by decide) h2
    have hstep2 := filterDiffL_clean hK1 hK2
    have hjoin_eq : joinNl (q1 :: qs) = q1 ++ joinTail qs :=
      joinNl_eq_joinTail qs q1
    have habs : splitSections (joinNl (q1 :: qs)) =
        splitSecAux q1.reverse (joinTail qs) := by
      rw [hjoin_eq]
      rw [show splitSections (q1 ++ joinTail qs) =
        splitSecAux [] (q1 ++ joinTail qs) from rfl]
      rw [splitSecAux_absorb q1 [] (joinTail qs)
        (noBound_block hq1.2.2.1 qs)]
      rw [List.append_nil]
    have hmain := pipeTail_join qs q1 hq1.1 hq1.2.1 hq1.2.2.1 hq1.2.2.2 hqs
    rw [hfl, hstep2, habs, hmain, ← hjoin_eq, jsTrim_fixed hecK]

/-!
## Claim C7: the diff normalizer is not idempotent
-/

/-- C7 counterexample: on `diffNoise` the first pass removes only the
part-of line (the instance block is not yet contiguous), and the second
pass removes the now-contiguous instance block, emptying the text — so
normalizing already-normalized text does not always yield the same
text. -/
theorem C7_filterDiff_not_idempotent :
    filterDiff (filterDiff diffNoise) ≠ filterDiff diffNoise := by
  decide

/-- C7 (amended): the normalizer is idempotent on texts that contain
neither annotation key — the instance key
`argocd.argoproj.io/instance:` nor the part-of key `io/part-of:` — as a
substring.  (On texts containing them, a second pass can strip further
blocks made contiguous by the first pass's deletions, as the
counterexample shows.) -/
theorem C7_filterDiff_idempotent_noise_free (s : String)
    (h1 : containsSub instKey s.data = false)
    (h2 : containsSub partKey s.data = false) :
    filterDiff (filterDiff s) = filterDiff s := by
  show (⟨filterDiffL (filterDiff s).data⟩ : String) = ⟨filterDiffL s.data⟩
  rw [show (filterDiff s).data = filterDiffL s.data from rfl]
  rw [filterDiffL_idem_clean h1 h2]

/-- Witness for the amended C7 at a concrete annotation-free diff. -/
theorem C7_filterDiff_idempotent_noise_free_witness :
    containsSub instKey diffPlain.data = false ∧
    containsSub partKey diffPlain.data = false ∧
    filterDiff (filterDiff diffPlain) = filterDiff diffPlain :=
  ⟨by decide, by decide,
    C7_filterDiff_idempotent_noise_free diffPlain (by decide) (by decide)⟩

end ArgoCDDiff
